import Mathlib

/-!
Verification of the marpe synchronization engine: the path classifier,
the document store (`state.rs`), the discovery scan (`discovery.rs`),
the watcher event normalizer (`watcher.rs`) and the change bus.

Paths are modelled as lists of components (`FsPath`); the filesystem is
an abstract map from paths to disk entries; the document store is a
key-sorted association list mirroring `BTreeMap<String, String>`.
-/

namespace Marpe

/-- A filesystem path, as its list of components (Rust `Path::components`). -/
abbrev FsPath := List String

/-- Characters after the last dot of a list, if any dot occurs. -/
def afterLastDot : List Char → Option (List Char)
  | [] => none
  | c :: rest =>
    match afterLastDot rest with
    | some s => some s
    | none => if c = '.' then some rest else none

/-- Rust `Path::extension` semantics on a file name: the portion after the
final dot, `none` when there is no dot, a leading dot alone not counting. -/
def rust_extension (f : String) : Option String :=
  match f.data with
  | '.' :: rest => (afterLastDot rest).map String.mk
  | cs => (afterLastDot cs).map String.mk

/-- Last component of a path (Rust `Path::file_name`). -/
def last_component : FsPath → Option String
  | [] => none
  | [c] => some c
  | _ :: c :: rest => last_component (c :: rest)

/-- `path.extension()` on a whole path: extension of its last component. -/
def path_extension (p : FsPath) : Option String :=
  match last_component p with
  | some f => rust_extension f
  | none => none

/-- `is_markdown` from `watcher.rs`: the extension is exactly `md`. -/
def is_markdown (p : FsPath) : Bool :=
  path_extension p == some "md"

/-- Rust `s.starts_with('.')` on a component. -/
def starts_with_dot (s : String) : Bool :=
  match s.data with
  | [] => false
  | c :: _ => c = '.'

/-- `should_skip` from `watcher.rs` and `discovery.rs`: some component is
hidden (leading dot) or equals `node_modules`. -/
def should_skip (p : FsPath) : Bool :=
  p.any (fun c => starts_with_dot c || c == "node_modules")

/-- Joining components back into the slash-separated string key
(Rust `to_string_lossy` of a relative path). -/
def joinPath (p : FsPath) : String :=
  String.intercalate "/" p

/-- `relative_path` from `watcher.rs`: `strip_prefix(root)` mapped to string. -/
def relative_path (p root : FsPath) : Option String :=
  if root.isPrefixOf p then some (joinPath (p.drop root.length)) else none

/-- `strip_prefix(root).unwrap_or(path)` from `discovery.rs`. -/
def strip_prefix_or (p root : FsPath) : FsPath :=
  if root.isPrefixOf p then p.drop root.length else p

/-- Abstract state of one path on disk at the moment an event is handled. -/
inductive DiskEntry
  | absent
  | directory
  | unreadable
  | file (content : String)

/-- The filesystem, as observed by `exists` / `is_file` / `read_to_string`. -/
abbrev Disk := FsPath → DiskEntry

/-- Rust `path.exists()`. -/
def path_exists (disk : Disk) (p : FsPath) : Bool :=
  match disk p with
  | .absent => false
  | _ => true

/-- Rust `path.is_file()`: an existing regular file (readable or not). -/
def is_file (disk : Disk) (p : FsPath) : Bool :=
  match disk p with
  | .unreadable => true
  | .file _ => true
  | _ => false

/-- Rust `fs::read_to_string`: succeeds exactly on readable regular files. -/
def read_to_string (disk : Disk) (p : FsPath) : Option String :=
  match disk p with
  | .file c => some c
  | _ => none

/-- `SseEvent` from `state.rs`. -/
inductive SseEvent
  | fileChanged (path : String)
  | fileAdded (path : String)
  | fileRemoved (path : String)
deriving DecidableEq

/-- Boolean lexicographic comparison of character lists, deciding the
strict lexicographic order (Rust `Ord` on `String`, which the `BTreeMap`
sorts by). -/
def key_ltb : List Char → List Char → Bool
  | [], [] => false
  | [], _ :: _ => true
  | _ :: _, [] => false
  | a :: as, b :: bs => if a < b then true else if b < a then false else key_ltb as bs

/-- Boolean lexicographic comparison of string keys. -/
def string_ltb (a b : String) : Bool :=
  key_ltb a.data b.data

/-- The document store: `BTreeMap<String, String>` as a key-sorted
association list from relative path to rendered HTML. -/
abbrev FileMap := List (String × String)

/-- `BTreeMap::get`. -/
def findV : FileMap → String → Option String
  | [], _ => none
  | e :: t, k => if e.1 = k then some e.2 else findV t k

/-- `BTreeMap::contains_key`. -/
def containsKey (m : FileMap) (k : String) : Bool :=
  (findV m k).isSome

/-- `BTreeMap::insert`: ordered insert, overwriting an equal key. -/
def insertB : FileMap → String → String → FileMap
  | [], k, v => [(k, v)]
  | e :: t, k, v =>
    if string_ltb k e.1 then (k, v) :: e :: t
    else if k = e.1 then (k, v) :: t
    else e :: insertB t k v

/-- `BTreeMap::remove` (the key part): drop the entry with the given key. -/
def eraseB : FileMap → String → FileMap
  | [], _ => []
  | e :: t, k => if e.1 = k then t else e :: eraseB t k

/-- `AppState::upsert`: insert or update, returning whether the key was new. -/
def upsert (m : FileMap) (path html : String) : Bool × FileMap :=
  (!(containsKey m path), insertB m path html)

/-- `AppState::remove`: remove, returning whether the key existed. -/
def remove (m : FileMap) (path : String) : Bool × FileMap :=
  (containsKey m path, eraseB m path)

/-- `AppState::file_list`: the sorted list of keys. -/
def file_list (m : FileMap) : List String :=
  m.map Prod.fst

/-- `AppState::get_rendered`. -/
def get_rendered (m : FileMap) (path : String) : Option String :=
  findV m path

/-! ## Watcher event normalizer (`watcher.rs`, consumer loop) -/

/-- `notify::event::RenameMode`, the variants the loop distinguishes;
`anyMode` stands for the fallback arm (`RenameMode::Any` and others). -/
inductive RenameMode
  | both
  | fromSide
  | toSide
  | anyMode

/-- `notify::EventKind`, at the granularity the loop matches on:
`Modify(ModifyKind::Name _)` is separated out first, remaining
`Create(_) | Modify(_)` share one arm. -/
inductive EventKind
  | modifyName (mode : RenameMode)
  | create
  | modifyOther
  | removeEvent
  | other

/-- A raw notification drained from the watcher queue. -/
structure FsEvent where
  kind : EventKind
  paths : List FsPath

/-- One pass of the `RenameMode::From` loop body (also the `Remove` arm,
whose code is identical): remove, publish `FileRemoved` if it existed. -/
def renameFromOne (root : FsPath) (acc : FileMap × List SseEvent) (path : FsPath) :
    FileMap × List SseEvent :=
  if !(is_markdown path) || should_skip path then acc else
  match relative_path path root with
  | none => acc
  | some rel =>
    let r := remove acc.1 rel
    if r.1 then (r.2, acc.2 ++ [SseEvent.fileRemoved rel]) else (r.2, acc.2)

/-- One pass of the `RenameMode::To` loop body: read, render, upsert
(result ignored), always publish `FileAdded`. -/
def renameToOne (render : String → String) (disk : Disk) (root : FsPath)
    (acc : FileMap × List SseEvent) (path : FsPath) : FileMap × List SseEvent :=
  if !(is_markdown path) || should_skip path then acc else
  match relative_path path root with
  | none => acc
  | some rel =>
    match read_to_string disk path with
    | some content =>
      let u := upsert acc.1 rel (render content)
      (u.2, acc.2 ++ [SseEvent.fileAdded rel])
    | none => acc

/-- One pass of the fallback rename arm (`RenameMode::Any`): probe
existence, then upsert (publishing `FileAdded` or `FileChanged` by
`is_new`) or remove (publishing `FileRemoved` if it existed). -/
def renameAnyOne (render : String → String) (disk : Disk) (root : FsPath)
    (acc : FileMap × List SseEvent) (path : FsPath) : FileMap × List SseEvent :=
  if !(is_markdown path) || should_skip path then acc else
  match relative_path path root with
  | none => acc
  | some rel =>
    if path_exists disk path then
      match read_to_string disk path with
      | some content =>
        let u := upsert acc.1 rel (render content)
        if u.1 then (u.2, acc.2 ++ [SseEvent.fileAdded rel])
        else (u.2, acc.2 ++ [SseEvent.fileChanged rel])
      | none => acc
    else
      let r := remove acc.1 rel
      if r.1 then (r.2, acc.2 ++ [SseEvent.fileRemoved rel]) else (r.2, acc.2)

/-- One pass of the `Create(_) | Modify(_)` loop body: read, render,
upsert, publish `FileAdded` or `FileChanged` by `is_new`; on read
failure do nothing. -/
def createModifyOne (render : String → String) (disk : Disk) (root : FsPath)
    (acc : FileMap × List SseEvent) (path : FsPath) : FileMap × List SseEvent :=
  if !(is_markdown path) || should_skip path then acc else
  match relative_path path root with
  | none => acc
  | some rel =>
    match read_to_string disk path with
    | some content =>
      let u := upsert acc.1 rel (render content)
      (u.2, acc.2 ++ [if u.1 then SseEvent.fileAdded rel else SseEvent.fileChanged rel])
    | none => acc

/-- The `RenameMode::Both` arm: handle the `from` side (remove, publish
`FileRemoved` if stored), then the `to` side (read, upsert with result
ignored, always publish `FileAdded`). -/
def renameBoth (render : String → String) (disk : Disk) (root : FsPath)
    (m : FileMap) (pf pt : FsPath) : FileMap × List SseEvent :=
  let acc1 :=
    if is_markdown pf && !(should_skip pf) then
      match relative_path pf root with
      | some rel =>
        let r := remove m rel
        if r.1 then (r.2, [SseEvent.fileRemoved rel]) else (r.2, [])
      | none => (m, ([] : List SseEvent))
    else (m, ([] : List SseEvent))
  if is_markdown pt && !(should_skip pt) then
    match relative_path pt root with
    | some rel =>
      match read_to_string disk pt with
      | some content =>
        let u := upsert acc1.1 rel (render content)
        (u.2, acc1.2 ++ [SseEvent.fileAdded rel])
      | none => acc1
    | none => acc1
  else acc1

/-- The body of the consumer loop of `start_watcher` for one dequeued
event: the store mutation and the list of published bus events. -/
def process_event (render : String → String) (disk : Disk) (root : FsPath)
    (m : FileMap) (ev : FsEvent) : FileMap × List SseEvent :=
  match ev.kind with
  | .modifyName .both =>
    match ev.paths.head?, ev.paths.get? 1 with
    | some pf, some pt => renameBoth render disk root m pf pt
    | _, _ => (m, [])
  | .modifyName .fromSide => ev.paths.foldl (renameFromOne root) (m, [])
  | .modifyName .toSide => ev.paths.foldl (renameToOne render disk root) (m, [])
  | .modifyName .anyMode => ev.paths.foldl (renameAnyOne render disk root) (m, [])
  | .create => ev.paths.foldl (createModifyOne render disk root) (m, [])
  | .modifyOther => ev.paths.foldl (createModifyOne render disk root) (m, [])
  | .removeEvent => ev.paths.foldl (renameFromOne root) (m, [])
  | .other => (m, [])

/-! ## Discovery (`discovery.rs`) -/

/-- The scope test Discovery applies in its walk filter (extension check
on the absolute path, `should_skip` on the root-relative path). -/
def discovery_in_scope (root p : FsPath) : Bool :=
  path_extension p == some "md" && !(should_skip (strip_prefix_or p root))

/-- The scope test the Watcher applies to an event path (`is_markdown`
and `should_skip` both on the absolute path). -/
def watcher_in_scope (p : FsPath) : Bool :=
  is_markdown p && !(should_skip p)

/-- `discover_and_render`: filter the walked entries to regular files in
scope, then read and render each, omitting entries whose read fails. -/
def discover_and_render (render : String → String) (disk : Disk) (root : FsPath)
    (entries : List FsPath) : List (String × String) :=
  (entries.filter (fun p => is_file disk p && discovery_in_scope root p)).filterMap
    (fun p =>
      let rel_str := joinPath (strip_prefix_or p root)
      match read_to_string disk p with
      | some content => some (rel_str, render content)
      | none => none)

/-- The store right after startup (`main.rs`): the discovery result as
the contents of the `BTreeMap`. -/
def initial_store (render : String → String) (disk : Disk) (root : FsPath)
    (entries : List FsPath) : FileMap :=
  (discover_and_render render disk root entries).foldl (fun m kv => insertB m kv.1 kv.2) []

/-! ## Sequences of store operations -/

/-- One `AppState` store mutation: an upsert or a remove. -/
inductive StoreOp
  | up (path html : String)
  | rm (path : String)

/-- Apply one store operation, discarding the returned flag. -/
def apply_op (m : FileMap) : StoreOp → FileMap
  | .up p h => (upsert m p h).2
  | .rm p => (remove m p).2

/-- Apply a finite sequence of store operations in order. -/
def apply_ops (m : FileMap) (ops : List StoreOp) : FileMap :=
  ops.foldl apply_op m

/-- Keys of the store are pairwise strictly increasing (the `BTreeMap`
representation invariant). -/
def SortedMap (m : FileMap) : Prop :=
  List.Pairwise (fun a b : String × String => a.1 < b.1) m

/-! ## ChangeBus -/

/-- Capacity of the bus (`broadcast::channel(64)` in `AppState::new`). -/
def bus_capacity : Nat := 64

/-- Modelled from the spec: the ChangeBus is tokio's `broadcast` channel,
whose implementation is not part of this repository (only its
instantiation at capacity 64 and its call sites are). Per the spec each
subscriber holds a bounded buffer of pending events; a publish appends to
the buffer, and when a buffer is full the subscriber's oldest unread
event is dropped to admit the new one. Publish is a total function: the
publisher always gets a result and never an error. -/
def push_bounded (cap : Nat) (buf : List SseEvent) (ev : SseEvent) : List SseEvent :=
  if buf.length < cap then buf ++ [ev] else buf.tail ++ [ev]

/-- Modelled from the spec: the buffer a subscriber observes after a
sequence of publishes. -/
def publish_sequence (cap : Nat) (buf : List SseEvent) (evs : List SseEvent) : List SseEvent :=
  evs.foldl (push_bounded cap) buf

/-! ## Reachable store states -/

/-- Components of real OS paths never contain a path separator. -/
def ValidPath (p : FsPath) : Prop :=
  ∀ c ∈ p, '/' ∉ c.data

/-- All paths carried by a raw notification are component lists of real
OS paths. -/
def ValidEvent (ev : FsEvent) : Prop :=
  ∀ p ∈ ev.paths, ValidPath p

/-- A store key accepted by the path classifier: it is the slash-joined
form of a nonempty relative component list that has the markdown
extension and no hidden or ignored component. -/
def GoodKey (k : String) : Prop :=
  ∃ p : FsPath, p ≠ [] ∧ ValidPath p ∧ joinPath p = k ∧
    is_markdown p = true ∧ should_skip p = false

/-- Every key currently in the store is accepted by the path classifier. -/
def GoodStore (m : FileMap) : Prop :=
  ∀ k ∈ file_list m, GoodKey k

/-- Store states reachable in a run over a directory root: the store is
populated by Discovery and then mutated only by the watcher consumer,
one event at a time, each observing some filesystem in which the root is
a directory. -/
inductive Reachable (render : String → String) (root : FsPath) : FileMap → Prop
  | init (disk : Disk) (entries : List FsPath)
      (hroot : disk root = DiskEntry.directory)
      (hentries : ∀ e ∈ entries, root.isPrefixOf e = true ∧ ValidPath e) :
      Reachable render root (initial_store render disk root entries)
  | step (m : FileMap) (disk : Disk) (ev : FsEvent)
      (hm : Reachable render root m)
      (hroot : disk root = DiskEntry.directory)
      (hev : ValidEvent ev) :
      Reachable render root (process_event render disk root m ev).1

/-! ## The boolean comparison decides the lexicographic order -/

theorem key_ltb_iff : ∀ (a b : List Char), key_ltb a b = true ↔ a < b := by
  intro a
  induction a with
  | nil =>
    intro b
    cases b with
    | nil => simp [key_ltb]
    | cons y ys => simp only [key_ltb]; simp; exact List.Lex.nil
  | cons x xs ih =>
    intro b
    cases b with
    | nil => simp [key_ltb]
    | cons y ys =>
      simp only [key_ltb]
      rcases lt_trichotomy x y with hxy | hxy | hxy
      · rw [if_pos hxy]
        simp
        exact List.Lex.rel hxy
      · subst hxy
        rw [if_neg (lt_irrefl x), if_neg (lt_irrefl x)]
        rw [ih ys]
        constructor
        · exact List.Lex.cons
        · intro h
          cases h with
          | cons h2 => exact h2
          | rel h2 => exact absurd h2 (lt_irrefl x)
      · rw [if_neg (asymm hxy), if_pos hxy]
        constructor
        · intro h; exact absurd h Bool.false_ne_true
        · intro h
          cases h with
          | cons h2 => exact absurd hxy (lt_irrefl x)
          | rel h2 => exact absurd h2 (not_lt_of_gt hxy)

theorem string_ltb_iff (a b : String) : string_ltb a b = true ↔ a < b := by
  rw [String.lt_iff_toList_lt]
  exact key_ltb_iff a.data b.data

/-! ## Store lemmas -/

theorem findV_insertB_self (m : FileMap) (k v : String) :
    findV (insertB m k v) k = some v := by
  induction m with
  | nil => simp [insertB, findV]
  | cons e t ih =>
    cases hlt : string_ltb k e.1 with
    | true => simp [insertB, hlt, findV]
    | false =>
      by_cases heq : k = e.1
      · subst heq
        simp [insertB, hlt, findV]
      · simp [insertB, hlt, heq, findV, Ne.symm heq, ih]

theorem findV_insertB_ne (m : FileMap) (k v q : String) (h : q ≠ k) :
    findV (insertB m k v) q = findV m q := by
  induction m with
  | nil => simp [insertB, findV, Ne.symm h]
  | cons e t ih =>
    cases hlt : string_ltb k e.1 with
    | true => simp [insertB, hlt, findV, Ne.symm h]
    | false =>
      by_cases heq : k = e.1
      · subst heq
        simp [insertB, hlt, findV, Ne.symm h]
      · simp only [insertB, hlt, Bool.false_eq_true, if_false, if_neg heq]
        simp [findV, ih]

theorem containsKey_insertB_self (m : FileMap) (k v : String) :
    containsKey (insertB m k v) k = true := by
  simp [containsKey, findV_insertB_self]

theorem findV_eraseB_ne (m : FileMap) (k q : String) (h : q ≠ k) :
    findV (eraseB m k) q = findV m q := by
  induction m with
  | nil => simp [eraseB]
  | cons e t ih =>
    by_cases heq : e.1 = k
    · subst heq
      simp [eraseB, findV, Ne.symm h]
    · simp [eraseB, heq, findV, ih]

theorem eraseB_of_not_contains (m : FileMap) (k : String)
    (h : containsKey m k = false) : eraseB m k = m := by
  induction m with
  | nil => rfl
  | cons e t ih =>
    simp only [containsKey, findV] at h
    by_cases heq : e.1 = k
    · simp [heq] at h
    · simp only [heq, if_false] at h
      simp [eraseB, heq]
      exact ih h

theorem findV_eq_none_of_no_key (m : FileMap) (k : String)
    (h : ∀ x ∈ m, x.1 ≠ k) : findV m k = none := by
  induction m with
  | nil => rfl
  | cons e t ih =>
    simp only [findV]
    rw [if_neg (h e (by simp))]
    exact ih (fun x hx => h x (by simp [hx]))

theorem findV_eraseB_self (m : FileMap) (k : String) (hs : SortedMap m) :
    findV (eraseB m k) k = none := by
  induction m with
  | nil => rfl
  | cons e t ih =>
    rcases List.pairwise_cons.mp hs with ⟨hhead, htail⟩
    by_cases heq : e.1 = k
    · simp only [eraseB, heq, if_true]
      exact findV_eq_none_of_no_key t k
        (fun x hx => by rw [← heq]; exact ne_of_gt (hhead x hx))
    · simp [eraseB, heq, findV, ih htail]

theorem mem_insertB (m : FileMap) (k v : String) :
    ∀ x ∈ insertB m k v, x = (k, v) ∨ x ∈ m := by
  induction m with
  | nil => simp [insertB]
  | cons e t ih =>
    intro x hx
    cases hlt : string_ltb k e.1 with
    | true =>
      rw [insertB, if_pos hlt] at hx
      simp only [List.mem_cons] at hx
      rcases hx with h | h | h
      · exact Or.inl h
      · exact Or.inr (by simp [h])
      · exact Or.inr (by simp [h])
    | false =>
      by_cases heq : k = e.1
      · rw [insertB, if_neg (by simp [hlt]), if_pos heq] at hx
        simp only [List.mem_cons] at hx
        rcases hx with h | h
        · exact Or.inl h
        · exact Or.inr (by simp [h])
      · rw [insertB, if_neg (by simp [hlt]), if_neg heq] at hx
        simp only [List.mem_cons] at hx
        rcases hx with h | h
        · exact Or.inr (by simp [h])
        · rcases ih x h with h2 | h2
          · exact Or.inl h2
          · exact Or.inr (by simp [h2])

theorem eraseB_sublist (m : FileMap) (k : String) : List.Sublist (eraseB m k) m := by
  induction m with
  | nil => simp [eraseB]
  | cons e t ih =>
    by_cases heq : e.1 = k
    · simp only [eraseB, heq, if_true]
      exact List.sublist_cons_self e t
    · simp only [eraseB, heq, if_false]
      exact ih.cons₂ e

theorem sorted_insertB (m : FileMap) (k v : String) (hs : SortedMap m) :
    SortedMap (insertB m k v) := by
  induction m with
  | nil => simp [insertB, SortedMap]
  | cons e t ih =>
    rcases List.pairwise_cons.mp hs with ⟨hhead, htail⟩
    cases hlt : string_ltb k e.1 with
    | true =>
      rw [insertB, if_pos hlt]
      refine List.pairwise_cons.mpr ⟨?_, hs⟩
      intro x hx
      have hk : k < e.1 := (string_ltb_iff k e.1).mp hlt
      rcases List.mem_cons.mp hx with h | h
      · rw [h]; exact hk
      · exact lt_trans hk (hhead x h)
    | false =>
      by_cases heq : k = e.1
      · rw [insertB, if_neg (by simp [hlt]), if_pos heq]
        refine List.pairwise_cons.mpr ⟨?_, htail⟩
        intro x hx
        rw [heq]
        exact hhead x hx
      · rw [insertB, if_neg (by simp [hlt]), if_neg heq]
        refine List.pairwise_cons.mpr ⟨?_, ih htail⟩
        intro x hx
        have hgt : e.1 < k := by
          rcases lt_trichotomy k e.1 with h | h | h
          · exact absurd ((string_ltb_iff k e.1).mpr h) (by simp [hlt])
          · exact absurd h heq
          · exact h
        rcases mem_insertB t k v x hx with h | h
        · rw [h]; exact hgt
        · exact hhead x h

theorem sorted_eraseB (m : FileMap) (k : String) (hs : SortedMap m) :
    SortedMap (eraseB m k) := by
  exact List.Pairwise.sublist (eraseB_sublist m k) hs

/-! ## Claims about the document store -/

/-- C7: on a store not containing `p`, `upsert(p, c1)` returns `true`, a
second `upsert(p, c2)` returns `false` and overwrites, and `get(p)` then
yields `c2`. -/
theorem upsert_twice_spec (m : FileMap) (p c1 c2 : String)
    (h : containsKey m p = false) :
    (upsert m p c1).1 = true ∧
    (upsert (upsert m p c1).2 p c2).1 = false ∧
    get_rendered (upsert (upsert m p c1).2 p c2).2 p = some c2 := by
  refine ⟨?_, ?_, ?_⟩
  · simp [upsert, h]
  · simp [upsert, containsKey_insertB_self]
  · simp [upsert, get_rendered, findV_insertB_self]

theorem upsert_twice_spec_witness :
    containsKey [] "a.md" = false ∧
    ((upsert [] "a.md" "c1").1 = true ∧
     (upsert (upsert [] "a.md" "c1").2 "a.md" "c2").1 = false ∧
     get_rendered (upsert (upsert [] "a.md" "c1").2 "a.md" "c2").2 "a.md" = some "c2") :=
  ⟨by decide, upsert_twice_spec [] "a.md" "c1" "c2" (by decide)⟩

/-- C9: removing an absent key returns `false` and leaves the store, and
hence `list()`, unchanged. -/
theorem remove_absent_spec (m : FileMap) (p : String)
    (h : containsKey m p = false) :
    remove m p = (false, m) ∧ file_list (remove m p).2 = file_list m := by
  have he : eraseB m p = m := eraseB_of_not_contains m p h
  constructor
  · simp [remove, h, he]
  · simp [remove, he]

theorem remove_absent_spec_witness :
    containsKey [("a.md", "x")] "b.md" = false ∧
    (remove [("a.md", "x")] "b.md" = (false, [("a.md", "x")]) ∧
     file_list (remove [("a.md", "x")] "b.md").2 = file_list [("a.md", "x")]) :=
  ⟨by decide, remove_absent_spec [("a.md", "x")] "b.md" (by decide)⟩

/-- C10: `upsert(p, c)` and `remove(p)` do not change `get(q)` for any
other key `q`. -/
theorem store_frame_spec (m : FileMap) (p c q : String) (h : q ≠ p) :
    get_rendered (upsert m p c).2 q = get_rendered m q ∧
    get_rendered (remove m p).2 q = get_rendered m q := by
  constructor
  · simp [upsert, get_rendered, findV_insertB_ne m p c q h]
  · simp [remove, get_rendered, findV_eraseB_ne m p q h]

theorem store_frame_spec_witness :
    ("b.md" : String) ≠ "a.md" ∧
    (get_rendered (upsert [("b.md", "y")] "a.md" "x").2 "b.md" =
       get_rendered [("b.md", "y")] "b.md" ∧
     get_rendered (remove [("b.md", "y")] "a.md").2 "b.md" =
       get_rendered [("b.md", "y")] "b.md") :=
  ⟨by decide, store_frame_spec [("b.md", "y")] "a.md" "x" "b.md" (by decide)⟩

/-- C8: after any finite sequence of upserts and removes from the empty
store, `list()` is strictly ascending in the lexicographic order. -/
theorem file_list_sorted_spec (ops : List StoreOp) :
    List.Chain' (· < ·) (file_list (apply_ops [] ops)) := by
  have hsorted : ∀ (l : List StoreOp) (m : FileMap), SortedMap m → SortedMap (apply_ops m l) := by
    intro l
    induction l with
    | nil => intro m hm; exact hm
    | cons op rest ih =>
      intro m hm
      cases op with
      | up p h => exact ih _ (sorted_insertB m p h hm)
      | rm p => exact ih _ (sorted_eraseB m p hm)
  have hs : SortedMap (apply_ops [] ops) := hsorted ops [] (by simp [SortedMap])
  have hp : List.Pairwise (· < ·) (file_list (apply_ops [] ops)) := by
    rw [file_list, List.pairwise_map]
    exact hs
  exact hp.chain'

/-! ## Path lemmas -/

theorem isPrefixOf_append_self : ∀ (r s : List String), r.isPrefixOf (r ++ s) = true := by
  intro r s
  induction r with
  | nil => simp [List.isPrefixOf]
  | cons a t ih => simp [List.isPrefixOf, ih]

theorem isPrefixOf_append_drop :
    ∀ (r p : List String), r.isPrefixOf p = true → r ++ p.drop r.length = p := by
  intro r
  induction r with
  | nil => intro p _; simp
  | cons a t ih =>
    intro p hp
    cases p with
    | nil => exact absurd hp (by simp [List.isPrefixOf])
    | cons b bs =>
      simp only [List.isPrefixOf, Bool.and_eq_true, beq_iff_eq] at hp
      rcases hp with ⟨hab, hrest⟩
      subst hab
      simp only [List.length_cons, List.drop_succ_cons, List.cons_append, List.cons.injEq,
        true_and]
      exact ih bs hrest

theorem should_skip_append (a b : FsPath) :
    should_skip (a ++ b) = (should_skip a || should_skip b) := by
  simp [should_skip, List.any_append]

theorem last_component_append :
    ∀ (a b : FsPath), b ≠ [] → last_component (a ++ b) = last_component b := by
  intro a
  induction a with
  | nil => intro b _; rfl
  | cons x xs ih =>
    intro b hb
    have hne : xs ++ b ≠ [] := by
      intro h
      rcases List.append_eq_nil.mp h with ⟨_, h2⟩
      exact hb h2
    obtain ⟨c, rest, hcr⟩ : ∃ c rest, xs ++ b = c :: rest := by
      cases hx : xs ++ b with
      | nil => exact absurd hx hne
      | cons c rest => exact ⟨c, rest, rfl⟩
    calc last_component ((x :: xs) ++ b) = last_component (x :: (c :: rest)) := by
          rw [List.cons_append, hcr]
      _ = last_component (c :: rest) := rfl
      _ = last_component (xs ++ b) := by rw [hcr]
      _ = last_component b := ih b hb

theorem is_markdown_append (a b : FsPath) (hb : b ≠ []) :
    is_markdown (a ++ b) = is_markdown b := by
  simp [is_markdown, path_extension, last_component_append a b hb]

theorem relative_path_eq (p root : FsPath) (rel : String)
    (h : relative_path p root = some rel) :
    ∃ q : FsPath, p = root ++ q ∧ q = p.drop root.length ∧ rel = joinPath q := by
  by_cases hp : root.isPrefixOf p = true
  · refine ⟨p.drop root.length, (isPrefixOf_append_drop root p hp).symm, rfl, ?_⟩
    rw [relative_path, if_pos hp] at h
    exact ((Option.some.injEq _ _).mp h).symm
  · rw [relative_path, if_neg hp] at h
    exact absurd h (by simp)

/-! ## C2: the two scope predicates -/

/-- C2 counterexample: under a root whose own name is hidden, Discovery
accepts a markdown file (its relative form is clean) while the Watcher
rejects the same path (its absolute form has a hidden component). -/
theorem scope_predicates_counterexample :
    discovery_in_scope [".h"] [".h", "a.md"] = true ∧
    watcher_in_scope [".h", "a.md"] = false := by
  constructor <;> rfl

/-- C2 (amended): whenever no component of the root is itself hidden or
an ignored directory, Discovery and the Watcher accept exactly the same
paths under that root. -/
theorem scope_predicates_agree (root rel : FsPath) (h : should_skip root = false) :
    discovery_in_scope root (root ++ rel) = watcher_in_scope (root ++ rel) := by
  have hpre : root.isPrefixOf (root ++ rel) = true := isPrefixOf_append_self root rel
  simp only [discovery_in_scope, watcher_in_scope, is_markdown, strip_prefix_or, hpre, if_true,
    List.drop_left, should_skip_append, h, Bool.false_or]

theorem scope_predicates_agree_witness :
    should_skip ["docs"] = false ∧
    discovery_in_scope ["docs"] (["docs"] ++ ["a.md"]) =
      watcher_in_scope (["docs"] ++ ["a.md"]) :=
  ⟨by rfl, scope_predicates_agree ["docs"] ["a.md"] (by rfl)⟩

/-! ## C3: the change bus -/

theorem publish_sequence_drop (cap : Nat) (hcap : 0 < cap) :
    ∀ (evs buf : List SseEvent), buf.length ≤ cap →
      publish_sequence cap buf evs = (buf ++ evs).drop (buf.length + evs.length - cap) := by
  intro evs
  induction evs with
  | nil =>
    intro buf hb
    simp [publish_sequence, Nat.sub_eq_zero_of_le hb]
  | cons e rest ih =>
    intro buf hb
    by_cases hlt : buf.length < cap
    · have hpush : push_bounded cap buf e = buf ++ [e] := by simp [push_bounded, hlt]
      have h2 := ih (buf ++ [e]) (by simp; omega)
      rw [publish_sequence, List.foldl_cons, hpush]
      rw [publish_sequence] at h2
      rw [h2]
      congr 1
      · simp
        omega
      · simp
    · have hfull : buf.length = cap := le_antisymm hb (not_lt.mp hlt)
      obtain ⟨b0, btail, rfl⟩ : ∃ b0 bt, buf = b0 :: bt := by
        cases buf with
        | nil => rw [List.length_nil] at hfull; omega
        | cons x xs => exact ⟨x, xs, rfl⟩
      have hb1 : (b0 :: btail).length = btail.length + 1 := by simp
      have hb2 : (btail ++ [e]).length = btail.length + 1 := by simp
      have hb3 : (e :: rest).length = rest.length + 1 := by simp
      have hpush : push_bounded cap (b0 :: btail) e = btail ++ [e] := by
        rw [push_bounded, if_neg hlt, List.tail_cons]
      have h2 := ih (btail ++ [e]) (by omega)
      rw [publish_sequence, List.foldl_cons, hpush]
      rw [publish_sequence] at h2
      rw [h2]
      have hlist : (btail ++ [e]) ++ rest = btail ++ e :: rest := by simp
      rw [hlist]
      have harith : (btail ++ [e]).length + rest.length - cap = rest.length := by omega
      have harith2 : (b0 :: btail).length + (e :: rest).length - cap = rest.length + 1 := by
        omega
      rw [harith, harith2, List.cons_append, List.drop_succ_cons]

/-- C3: publish is a total function of the bus state (the publisher gets
a result, never an error, whether or not a subscriber is attached); a
publish into a buffer below capacity 64 appends; a publish into a full
buffer drops the oldest unread event and admits the new one; the buffer
never exceeds capacity; and a subscriber that fell behind holds exactly
the most recent events, in order. -/
theorem changebus_spec (buf : List SseEvent) (ev : SseEvent) (evs : List SseEvent)
    (hlen : buf.length ≤ bus_capacity) :
    (buf.length < bus_capacity → push_bounded bus_capacity buf ev = buf ++ [ev]) ∧
    (buf.length = bus_capacity → push_bounded bus_capacity buf ev = buf.drop 1 ++ [ev]) ∧
    (push_bounded bus_capacity buf ev).length ≤ bus_capacity ∧
    publish_sequence bus_capacity [] evs = evs.drop (evs.length - bus_capacity) := by
  refine ⟨?_, ?_, ?_, ?_⟩
  · intro h
    simp [push_bounded, h]
  · intro h
    have hnlt : ¬ buf.length < bus_capacity := by omega
    simp [push_bounded, hnlt, List.drop_one]
  · by_cases h : buf.length < bus_capacity
    · simp [push_bounded, h]
      omega
    · simp only [push_bounded, h, if_false]
      have : buf.length = bus_capacity := by omega
      cases buf with
      | nil => simp [bus_capacity] at this
      | cons x xs =>
        simp at this ⊢
        omega
  · have h := publish_sequence_drop bus_capacity (by simp [bus_capacity]) evs [] (by simp)
    simpa using h

theorem changebus_spec_witness :
    ([SseEvent.fileAdded "a.md"].length ≤ bus_capacity) ∧
    (([SseEvent.fileAdded "a.md"].length < bus_capacity →
        push_bounded bus_capacity [SseEvent.fileAdded "a.md"] (SseEvent.fileChanged "b.md") =
          [SseEvent.fileAdded "a.md"] ++ [SseEvent.fileChanged "b.md"]) ∧
     ([SseEvent.fileAdded "a.md"].length = bus_capacity →
        push_bounded bus_capacity [SseEvent.fileAdded "a.md"] (SseEvent.fileChanged "b.md") =
          [SseEvent.fileAdded "a.md"].drop 1 ++ [SseEvent.fileChanged "b.md"]) ∧
     (push_bounded bus_capacity [SseEvent.fileAdded "a.md"]
        (SseEvent.fileChanged "b.md")).length ≤ bus_capacity ∧
     publish_sequence bus_capacity [] [SseEvent.fileRemoved "c.md"] =
       [SseEvent.fileRemoved "c.md"].drop ([SseEvent.fileRemoved "c.md"].length - bus_capacity)) :=
  ⟨by decide, changebus_spec [SseEvent.fileAdded "a.md"] (SseEvent.fileChanged "b.md")
    [SseEvent.fileRemoved "c.md"] (by decide)⟩

/-! ## C5: single-sided ambiguous rename -/

/-- C5: an ambiguous rename notification for an in-scope path probes the
disk: if the path is a readable file its rendered content is upserted and
`FileAdded` is published for a new key, else `FileChanged`; if the path
does not exist it is removed and `FileRemoved` is published only if it
was present. -/
theorem ambiguous_rename_spec (render : String → String) (disk : Disk) (root : FsPath)
    (m : FileMap) (p : FsPath) (rel c : String)
    (hmd : is_markdown p = true) (hskip : should_skip p = false)
    (hrel : relative_path p root = some rel) :
    (disk p = DiskEntry.file c →
      process_event render disk root m ⟨.modifyName .anyMode, [p]⟩ =
        (insertB m rel (render c),
         [if containsKey m rel then SseEvent.fileChanged rel else SseEvent.fileAdded rel])) ∧
    (disk p = DiskEntry.absent →
      process_event render disk root m ⟨.modifyName .anyMode, [p]⟩ =
        (eraseB m rel, if containsKey m rel then [SseEvent.fileRemoved rel] else [])) := by
  constructor
  · intro hc
    simp only [process_event, List.foldl_cons, List.foldl_nil]
    rw [renameAnyOne]
    simp only [hmd, hskip, Bool.not_true, Bool.or_self, Bool.false_eq_true, if_false, hrel]
    simp only [path_exists, read_to_string, hc, upsert]
    cases hck : containsKey m rel <;> simp [hck]
  · intro hc
    simp only [process_event, List.foldl_cons, List.foldl_nil]
    rw [renameAnyOne]
    simp only [hmd, hskip, Bool.not_true, Bool.or_self, Bool.false_eq_true, if_false, hrel]
    simp only [path_exists, hc, Bool.false_eq_true, if_false, remove]
    cases hck : containsKey m rel <;> simp [hck]

theorem ambiguous_rename_spec_witness :
    process_event (fun s => s) (fun _ => DiskEntry.absent) [] [("a.md", "h")]
        ⟨.modifyName .anyMode, [["a.md"]]⟩ =
      (eraseB [("a.md", "h")] "a.md",
       if containsKey [("a.md", "h")] "a.md" then [SseEvent.fileRemoved "a.md"] else []) :=
  (ambiguous_rename_spec (fun s => s) (fun _ => DiskEntry.absent) [] [("a.md", "h")]
    ["a.md"] "a.md" "c" (by rfl) (by rfl) (by rfl)).2 rfl

/-! ## C6: read failures are dropped by omission -/

/-- C6: a create or modify notification on an in-scope path whose read
fails leaves the store untouched and publishes nothing, and a file whose
read fails during Discovery is simply omitted from the result; in both
cases the operation still returns normally, surfacing no error. -/
theorem silent_read_failure_spec (render : String → String) (disk : Disk) (root : FsPath)
    (m : FileMap) (p : FsPath) (pre post : List FsPath) (e : FsPath)
    (hmd : is_markdown p = true) (hskip : should_skip p = false)
    (hread : read_to_string disk p = none)
    (hread2 : read_to_string disk e = none) :
    process_event render disk root m ⟨.create, [p]⟩ = (m, []) ∧
    process_event render disk root m ⟨.modifyOther, [p]⟩ = (m, []) ∧
    discover_and_render render disk root (pre ++ e :: post) =
      discover_and_render render disk root (pre ++ post) := by
  have hone : createModifyOne render disk root (m, ([] : List SseEvent)) p = (m, []) := by
    cases hrel : relative_path p root with
    | none => simp [createModifyOne, hmd, hskip, hrel]
    | some rel => simp [createModifyOne, hmd, hskip, hrel, hread]
  refine ⟨?_, ?_, ?_⟩
  · simp only [process_event, List.foldl_cons, List.foldl_nil, hone]
  · simp only [process_event, List.foldl_cons, List.foldl_nil, hone]
  · by_cases hf : (is_file disk e && discovery_in_scope root e) = true
    · simp [discover_and_render, List.filter_append, List.filter_cons, hf,
        List.filterMap_append, List.filterMap_cons, hread2]
    · simp [discover_and_render, List.filter_append, List.filter_cons, hf,
        List.filterMap_append]

theorem silent_read_failure_spec_witness :
    process_event (fun s => s) (fun _ => DiskEntry.absent) [] [("x.md", "h")]
        ⟨.create, [["a.md"]]⟩ = ([("x.md", "h")], []) ∧
    process_event (fun s => s) (fun _ => DiskEntry.absent) [] [("x.md", "h")]
        ⟨.modifyOther, [["a.md"]]⟩ = ([("x.md", "h")], []) ∧
    discover_and_render (fun s => s) (fun _ => DiskEntry.absent) []
        ([["ok.md"]] ++ [["b.md"]] ++ []) =
      discover_and_render (fun s => s) (fun _ => DiskEntry.absent) [] ([["ok.md"]] ++ []) :=
  silent_read_failure_spec (fun s => s) (fun _ => DiskEntry.absent) [] [("x.md", "h")]
    ["a.md"] [["ok.md"]] [] ["b.md"] (by rfl) (by rfl) (by rfl) (by rfl)

/-! ## C1: paired rename -/

/-- C1 counterexample: a paired rename onto a path that is already a key
in the store publishes `FileAdded`, not `FileChanged` — the `Both` arm
ignores the upsert's `is_new` result. -/
theorem paired_rename_counterexample :
    containsKey [("b.md", "old")] "b.md" = true ∧
    (process_event (fun s => s)
        (fun q => if q = ["b.md"] then DiskEntry.file "new" else DiskEntry.absent)
        [] [("b.md", "old")]
        ⟨.modifyName .both, [["a.txt"], ["b.md"]]⟩).2 = [SseEvent.fileAdded "b.md"] ∧
    SseEvent.fileChanged "b.md" ∉
      (process_event (fun s => s)
        (fun q => if q = ["b.md"] then DiskEntry.file "new" else DiskEntry.absent)
        [] [("b.md", "old")]
        ⟨.modifyName .both, [["a.txt"], ["b.md"]]⟩).2 := by
  refine ⟨rfl, ?_, ?_⟩ <;> decide

/-- C1 (amended): the two sides of a paired rename act independently.
If the old path is in-scope and currently stored, `FileRemoved(old)` is
published first and the old entry is absent from the resulting store —
unless the new side re-created that very key, in which case it holds the
newly rendered content. If the new path is in-scope and its content can
be read, the rendered content is upserted under the new key and
`FileAdded(new)` is always published last, whether or not the key
already existed (`FileChanged` is never published by this arm). -/
theorem paired_rename_spec (render : String → String) (disk : Disk) (root : FsPath)
    (m : FileMap) (pf pt : FsPath) (relF relT c : String)
    (hsm : SortedMap m) :
    (is_markdown pf = true → should_skip pf = false →
      relative_path pf root = some relF → containsKey m relF = true →
      (process_event render disk root m ⟨.modifyName .both, [pf, pt]⟩).2.head? =
          some (SseEvent.fileRemoved relF) ∧
      (get_rendered (process_event render disk root m
            ⟨.modifyName .both, [pf, pt]⟩).1 relF = none ∨
        (relative_path pt root = some relF ∧
          get_rendered (process_event render disk root m
              ⟨.modifyName .both, [pf, pt]⟩).1 relF =
            Option.map render (read_to_string disk pt)))) ∧
    (is_markdown pt = true → should_skip pt = false →
      relative_path pt root = some relT → read_to_string disk pt = some c →
      get_rendered (process_event render disk root m
          ⟨.modifyName .both, [pf, pt]⟩).1 relT = some (render c) ∧
      (process_event render disk root m ⟨.modifyName .both, [pf, pt]⟩).2.getLast? =
        some (SseEvent.fileAdded relT)) := by
  have hpe0 : process_event render disk root m ⟨.modifyName .both, [pf, pt]⟩ =
      renameBoth render disk root m pf pt := by
    simp only [process_event, List.head?_cons, List.get?]
  constructor
  · intro hmdF hskF hrelF hcont
    rw [hpe0, renameBoth]
    simp only [hmdF, hskF, Bool.not_false, Bool.and_self, if_true, hrelF, remove, hcont]
    cases hct : (is_markdown pt && !(should_skip pt)) with
    | false =>
      simp only [hct, Bool.false_eq_true, if_false]
      exact ⟨rfl, Or.inl (findV_eraseB_self m relF hsm)⟩
    | true =>
      simp only [hct, if_true]
      cases hrelT2 : relative_path pt root with
      | none => exact ⟨rfl, Or.inl (findV_eraseB_self m relF hsm)⟩
      | some relT2 =>
        cases hread2 : read_to_string disk pt with
        | none => exact ⟨rfl, Or.inl (findV_eraseB_self m relF hsm)⟩
        | some c2 =>
          simp only [upsert]
          refine ⟨rfl, ?_⟩
          by_cases he : relT2 = relF
          · subst he
            refine Or.inr ⟨rfl, ?_⟩
            simp only [Option.map_some']
            exact findV_insertB_self _ _ _
          · refine Or.inl ?_
            show findV (insertB (eraseB m relF) relT2 (render c2)) relF = none
            rw [findV_insertB_ne _ _ _ _ (fun hh => he hh.symm)]
            exact findV_eraseB_self m relF hsm
  · intro hmdT hskT hrelT hread
    rw [hpe0, renameBoth]
    have hct : (is_markdown pt && !(should_skip pt)) = true := by
      rw [hmdT, hskT]
      rfl
    simp only [hct, if_true, hrelT, hread, upsert]
    constructor
    · exact findV_insertB_self _ _ _
    · exact List.getLast?_concat _

theorem paired_rename_spec_witness :
    ((is_markdown ["a.md"] = true → should_skip ["a.md"] = false →
      relative_path ["a.md"] [] = some "a.md" →
      containsKey [("a.md", "A")] "a.md" = true →
      (process_event (fun s => s)
          (fun q => if q = ["b.md"] then DiskEntry.file "x" else DiskEntry.absent)
          [] [("a.md", "A")] ⟨.modifyName .both, [["a.md"], ["b.md"]]⟩).2.head? =
          some (SseEvent.fileRemoved "a.md") ∧
      (get_rendered (process_event (fun s => s)
            (fun q => if q = ["b.md"] then DiskEntry.file "x" else DiskEntry.absent)
            [] [("a.md", "A")] ⟨.modifyName .both, [["a.md"], ["b.md"]]⟩).1 "a.md" = none ∨
        (relative_path ["b.md"] [] = some "a.md" ∧
          get_rendered (process_event (fun s => s)
              (fun q => if q = ["b.md"] then DiskEntry.file "x" else DiskEntry.absent)
              [] [("a.md", "A")] ⟨.modifyName .both, [["a.md"], ["b.md"]]⟩).1 "a.md" =
            Option.map (fun s => s)
              (read_to_string
                (fun q => if q = ["b.md"] then DiskEntry.file "x" else DiskEntry.absent)
                ["b.md"])))) ∧
     (is_markdown ["b.md"] = true → should_skip ["b.md"] = false →
      relative_path ["b.md"] [] = some "b.md" →
      read_to_string
          (fun q => if q = ["b.md"] then DiskEntry.file "x" else DiskEntry.absent)
          ["b.md"] = some "x" →
      get_rendered (process_event (fun s => s)
          (fun q => if q = ["b.md"] then DiskEntry.file "x" else DiskEntry.absent)
          [] [("a.md", "A")] ⟨.modifyName .both, [["a.md"], ["b.md"]]⟩).1 "b.md" =
        some ((fun s => s) "x") ∧
      (process_event (fun s => s)
          (fun q => if q = ["b.md"] then DiskEntry.file "x" else DiskEntry.absent)
          [] [("a.md", "A")] ⟨.modifyName .both, [["a.md"], ["b.md"]]⟩).2.getLast? =
        some (SseEvent.fileAdded "b.md"))) :=
  paired_rename_spec (fun s => s)
    (fun q => if q = ["b.md"] then DiskEntry.file "x" else DiskEntry.absent)
    [] [("a.md", "A")] ["a.md"] ["b.md"] "a.md" "b.md" "x"
    (by simp [SortedMap])

/-! ## C4: every store key is accepted by the path classifier -/

theorem goodStore_insertB (m : FileMap) (k v : String) (hm : GoodStore m) (hk : GoodKey k) :
    GoodStore (insertB m k v) := by
  intro k' hk'
  rw [file_list, List.mem_map] at hk'
  obtain ⟨x, hx, rfl⟩ := hk'
  rcases mem_insertB m k v x hx with h | h
  · rw [h]
    exact hk
  · exact hm x.1 (by rw [file_list, List.mem_map]; exact ⟨x, h, rfl⟩)

theorem goodStore_eraseB (m : FileMap) (k : String) (hm : GoodStore m) :
    GoodStore (eraseB m k) := by
  intro k' hk'
  rw [file_list, List.mem_map] at hk'
  obtain ⟨x, hx, rfl⟩ := hk'
  exact hm x.1 (by rw [file_list, List.mem_map]; exact ⟨x, (eraseB_sublist m k).subset hx, rfl⟩)

theorem validPath_drop (p : FsPath) (n : Nat) (h : ValidPath p) : ValidPath (p.drop n) :=
  fun c hc => h c (List.drop_subset n p hc)

theorem goodKey_of_insert (disk : Disk) (root p : FsPath) (rel c : String)
    (hroot : disk root = DiskEntry.directory) (hvp : ValidPath p)
    (hmd : is_markdown p = true) (hsk : should_skip p = false)
    (hrel : relative_path p root = some rel)
    (hread : read_to_string disk p = some c) : GoodKey rel := by
  obtain ⟨q, hpq, hqdrop, hrelq⟩ := relative_path_eq p root rel hrel
  have hqne : q ≠ [] := by
    intro h0
    rw [h0, List.append_nil] at hpq
    rw [hpq] at hread
    simp [read_to_string, hroot] at hread
  refine ⟨q, hqne, ?_, hrelq.symm, ?_, ?_⟩
  · rw [hqdrop]
    exact validPath_drop p root.length hvp
  · rw [hpq, is_markdown_append root q hqne] at hmd
    exact hmd
  · rw [hpq, should_skip_append] at hsk
    exact (Bool.or_eq_false_iff.mp hsk).2

theorem goodStore_renameFromOne (root : FsPath) (acc : FileMap × List SseEvent) (p : FsPath)
    (h : GoodStore acc.1) : GoodStore (renameFromOne root acc p).1 := by
  rw [renameFromOne]
  cases hc : (!(is_markdown p) || should_skip p) with
  | true => simp only [hc, if_true]; exact h
  | false =>
    simp only [hc, Bool.false_eq_true, if_false]
    cases hrel : relative_path p root with
    | none => exact h
    | some rel =>
      cases hb : (remove acc.1 rel).1 <;>
        simp only [hb, if_true, Bool.false_eq_true, if_false] <;>
        exact goodStore_eraseB acc.1 rel h

theorem goodStore_renameToOne (render : String → String) (disk : Disk) (root : FsPath)
    (acc : FileMap × List SseEvent) (p : FsPath)
    (hroot : disk root = DiskEntry.directory) (hvp : ValidPath p)
    (h : GoodStore acc.1) : GoodStore (renameToOne render disk root acc p).1 := by
  rw [renameToOne]
  cases hc : (!(is_markdown p) || should_skip p) with
  | true => simp only [hc, if_true]; exact h
  | false =>
    obtain ⟨hmd, hsk⟩ : is_markdown p = true ∧ should_skip p = false := by
      cases hmdb : is_markdown p <;> cases hskb : should_skip p <;>
        rw [hmdb, hskb] at hc <;> simp_all
    simp only [hc, Bool.false_eq_true, if_false]
    cases hrel : relative_path p root with
    | none => exact h
    | some rel =>
      cases hread : read_to_string disk p with
      | none => exact h
      | some content =>
        simp only [upsert]
        exact goodStore_insertB acc.1 rel (render content) h
          (goodKey_of_insert disk root p rel content hroot hvp hmd hsk hrel hread)

theorem goodStore_renameAnyOne (render : String → String) (disk : Disk) (root : FsPath)
    (acc : FileMap × List SseEvent) (p : FsPath)
    (hroot : disk root = DiskEntry.directory) (hvp : ValidPath p)
    (h : GoodStore acc.1) : GoodStore (renameAnyOne render disk root acc p).1 := by
  rw [renameAnyOne]
  cases hc : (!(is_markdown p) || should_skip p) with
  | true => simp only [hc, if_true]; exact h
  | false =>
    obtain ⟨hmd, hsk⟩ : is_markdown p = true ∧ should_skip p = false := by
      cases hmdb : is_markdown p <;> cases hskb : should_skip p <;>
        rw [hmdb, hskb] at hc <;> simp_all
    simp only [hc, Bool.false_eq_true, if_false]
    cases hrel : relative_path p root with
    | none => exact h
    | some rel =>
      cases hex : path_exists disk p with
      | true =>
        simp only [hex, if_true]
        cases hread : read_to_string disk p with
        | none => exact h
        | some content =>
          simp only [upsert]
          cases hn : !(containsKey acc.1 rel) <;>
            simp only [hn, if_true, Bool.false_eq_true, if_false] <;>
            exact goodStore_insertB acc.1 rel (render content) h
              (goodKey_of_insert disk root p rel content hroot hvp hmd hsk hrel hread)
      | false =>
        simp only [hex, Bool.false_eq_true, if_false]
        cases hb : (remove acc.1 rel).1 <;>
          simp only [hb, if_true, Bool.false_eq_true, if_false] <;>
          exact goodStore_eraseB acc.1 rel h

theorem goodStore_createModifyOne (render : String → String) (disk : Disk) (root : FsPath)
    (acc : FileMap × List SseEvent) (p : FsPath)
    (hroot : disk root = DiskEntry.directory) (hvp : ValidPath p)
    (h : GoodStore acc.1) : GoodStore (createModifyOne render disk root acc p).1 := by
  rw [createModifyOne]
  cases hc : (!(is_markdown p) || should_skip p) with
  | true => simp only [hc, if_true]; exact h
  | false =>
    obtain ⟨hmd, hsk⟩ : is_markdown p = true ∧ should_skip p = false := by
      cases hmdb : is_markdown p <;> cases hskb : should_skip p <;>
        rw [hmdb, hskb] at hc <;> simp_all
    simp only [hc, Bool.false_eq_true, if_false]
    cases hrel : relative_path p root with
    | none => exact h
    | some rel =>
      cases hread : read_to_string disk p with
      | none => exact h
      | some content =>
        simp only [upsert]
        exact goodStore_insertB acc.1 rel (render content) h
          (goodKey_of_insert disk root p rel content hroot hvp hmd hsk hrel hread)

theorem goodStore_renameBoth (render : String → String) (disk : Disk) (root : FsPath)
    (m : FileMap) (pf pt : FsPath)
    (hroot : disk root = DiskEntry.directory) (hvt : ValidPath pt)
    (h : GoodStore m) : GoodStore (renameBoth render disk root m pf pt).1 := by
  have hacc1 : GoodStore ((if is_markdown pf && !(should_skip pf) then
      match relative_path pf root with
      | some rel =>
        let r := remove m rel
        if r.1 then (r.2, [SseEvent.fileRemoved rel]) else (r.2, [])
      | none => (m, ([] : List SseEvent))
    else (m, ([] : List SseEvent)))).1 := by
    cases hcf : (is_markdown pf && !(should_skip pf)) with
    | false => simp only [hcf, Bool.false_eq_true, if_false]; exact h
    | true =>
      simp only [hcf, if_true]
      cases hrel : relative_path pf root with
      | none => exact h
      | some rel =>
        cases hb : (remove m rel).1 <;>
          simp only [hb, if_true, Bool.false_eq_true, if_false] <;>
          exact goodStore_eraseB m rel h
  rw [renameBoth]
  cases hct : (is_markdown pt && !(should_skip pt)) with
  | false => simp only [hct, Bool.false_eq_true, if_false]; exact hacc1
  | true =>
    obtain ⟨hmd, hsk⟩ : is_markdown pt = true ∧ should_skip pt = false := by
      cases hmdb : is_markdown pt <;> cases hskb : should_skip pt <;>
        rw [hmdb, hskb] at hct <;> simp_all
    simp only [hct, if_true]
    cases hrel : relative_path pt root with
    | none => exact hacc1
    | some rel =>
      cases hread : read_to_string disk pt with
      | none => exact hacc1
      | some content =>
        simp only [upsert]
        exact goodStore_insertB _ rel (render content) hacc1
          (goodKey_of_insert disk root pt rel content hroot hvt hmd hsk hrel hread)

theorem goodStore_foldl (f : FileMap × List SseEvent → FsPath → FileMap × List SseEvent)
    (l : List FsPath)
    (hf : ∀ acc p, p ∈ l → GoodStore acc.1 → GoodStore (f acc p).1) :
    ∀ acc, GoodStore acc.1 → GoodStore (l.foldl f acc).1 := by
  induction l with
  | nil => intro acc h; exact h
  | cons p rest ih =>
    intro acc h
    rw [List.foldl_cons]
    exact ih (fun a q hq hg => hf a q (by simp [hq]) hg) (f acc p) (hf acc p (by simp) h)

theorem goodStore_process_event (render : String → String) (disk : Disk) (root : FsPath)
    (m : FileMap) (ev : FsEvent)
    (hroot : disk root = DiskEntry.directory) (hev : ValidEvent ev)
    (h : GoodStore m) : GoodStore (process_event render disk root m ev).1 := by
  obtain ⟨kind, paths⟩ := ev
  cases kind with
  | modifyName mode =>
    cases mode with
    | both =>
      cases paths with
      | nil => exact h
      | cons pf rest =>
        cases rest with
        | nil => exact h
        | cons pt rest2 =>
          simp only [process_event, List.head?_cons, List.get?]
          exact goodStore_renameBoth render disk root m pf pt hroot
            (hev pt (by simp)) h
    | fromSide =>
      exact goodStore_foldl _ paths
        (fun acc p _ hg => goodStore_renameFromOne root acc p hg) (m, []) h
    | toSide =>
      exact goodStore_foldl _ paths
        (fun acc p hp hg =>
          goodStore_renameToOne render disk root acc p hroot (hev p hp) hg) (m, []) h
    | anyMode =>
      exact goodStore_foldl _ paths
        (fun acc p hp hg =>
          goodStore_renameAnyOne render disk root acc p hroot (hev p hp) hg) (m, []) h
  | create =>
    exact goodStore_foldl _ paths
      (fun acc p hp hg =>
        goodStore_createModifyOne render disk root acc p hroot (hev p hp) hg) (m, []) h
  | modifyOther =>
    exact goodStore_foldl _ paths
      (fun acc p hp hg =>
        goodStore_createModifyOne render disk root acc p hroot (hev p hp) hg) (m, []) h
  | removeEvent =>
    exact goodStore_foldl _ paths
      (fun acc p _ hg => goodStore_renameFromOne root acc p hg) (m, []) h
  | other => exact h

theorem goodKey_discover (render : String → String) (disk : Disk) (root : FsPath)
    (entries : List FsPath)
    (hroot : disk root = DiskEntry.directory)
    (hent : ∀ e ∈ entries, root.isPrefixOf e = true ∧ ValidPath e) :
    ∀ kv ∈ discover_and_render render disk root entries, GoodKey kv.1 := by
  intro kv hkv
  rw [discover_and_render, List.mem_filterMap] at hkv
  obtain ⟨p, hpfil, hg⟩ := hkv
  rw [List.mem_filter] at hpfil
  obtain ⟨hpent, hpcond⟩ := hpfil
  rw [Bool.and_eq_true] at hpcond
  obtain ⟨hfile, hscope⟩ := hpcond
  rw [discovery_in_scope, Bool.and_eq_true] at hscope
  obtain ⟨hext, hskipb⟩ := hscope
  obtain ⟨hpre, hvp⟩ := hent p hpent
  obtain ⟨content, hread, hkv⟩ :
      ∃ content, read_to_string disk p = some content ∧
        kv = (joinPath (strip_prefix_or p root), render content) := by
    cases hread : read_to_string disk p with
    | none => simp [hread] at hg
    | some content =>
      simp only [hread] at hg
      exact ⟨content, rfl, ((Option.some.injEq _ _).mp hg).symm⟩
  have hq : strip_prefix_or p root = p.drop root.length := by
    rw [strip_prefix_or, if_pos hpre]
  have hpq : p = root ++ p.drop root.length := (isPrefixOf_append_drop root p hpre).symm
  have hqne : p.drop root.length ≠ [] := by
    intro h0
    have hp0 : p = root := by rw [hpq, h0, List.append_nil]
    rw [hp0] at hfile
    simp [is_file, hroot] at hfile
  rw [hkv, hq]
  refine ⟨p.drop root.length, hqne, validPath_drop p root.length hvp, rfl, ?_, ?_⟩
  · have hmd : is_markdown p = true := hext
    rw [hpq, is_markdown_append root _ hqne] at hmd
    exact hmd
  · have hsk : (!(should_skip (strip_prefix_or p root))) = true := hskipb
    rw [hq] at hsk
    cases hs : should_skip (p.drop root.length) with
    | false => rfl
    | true => rw [hs] at hsk; simp at hsk

theorem goodStore_initial (render : String → String) (disk : Disk) (root : FsPath)
    (entries : List FsPath)
    (hroot : disk root = DiskEntry.directory)
    (hent : ∀ e ∈ entries, root.isPrefixOf e = true ∧ ValidPath e) :
    GoodStore (initial_store render disk root entries) := by
  rw [initial_store]
  have hkeys := goodKey_discover render disk root entries hroot hent
  have hfold : ∀ (pairs : List (String × String)) (m0 : FileMap),
      (∀ kv ∈ pairs, GoodKey kv.1) → GoodStore m0 →
      GoodStore (pairs.foldl (fun m kv => insertB m kv.1 kv.2) m0) := by
    intro pairs
    induction pairs with
    | nil => intro m0 _ h0; exact h0
    | cons kv rest ih =>
      intro m0 hks h0
      rw [List.foldl_cons]
      exact ih _ (fun x hx => hks x (by simp [hx]))
        (goodStore_insertB m0 kv.1 kv.2 h0 (hks kv (by simp)))
  exact hfold _ [] hkeys (fun k hk => absurd hk (by simp [file_list]))

/-- C4: in every reachable store state — populated by Discovery over a
directory root and mutated only by the watcher's canonical actions —
every key is accepted by the path classifier: it is the joined form of a
nonempty relative component list with the markdown extension and no
hidden or `node_modules` component. -/
theorem store_keys_accepted_spec (render : String → String) (root : FsPath) (m : FileMap)
    (h : Reachable render root m) : GoodStore m := by
  induction h with
  | init disk entries hroot hent => exact goodStore_initial render disk root entries hroot hent
  | step m2 disk ev _ hroot hev ih =>
    exact goodStore_process_event render disk root m2 ev hroot hev ih

theorem store_keys_accepted_spec_witness : GoodKey "a.md" :=
  store_keys_accepted_spec (fun s => s) []
    (initial_store (fun s => s)
      (fun p => if p = ([] : FsPath) then DiskEntry.directory
        else if p = ["a.md"] then DiskEntry.file "x" else DiskEntry.absent)
      [] [["a.md"]])
    (Reachable.init
      (fun p => if p = ([] : FsPath) then DiskEntry.directory
        else if p = ["a.md"] then DiskEntry.file "x" else DiskEntry.absent)
      [["a.md"]] (by rfl)
      (by
        intro e he
        simp only [List.mem_singleton] at he
        subst he
        refine ⟨by rfl, ?_⟩
        intro c hc
        simp only [List.mem_singleton] at hc
        subst hc
        decide))
    "a.md" (by decide)

end Marpe
